import Mathlib

/-!
# Role persistence service: `lib/services/local/access.go`

A shallow embedding of `AccessService` (the five role operations) over an explicit
backend state.  The Go receiver embeds a `backend.Backend` interface value; here the
interface is a record of pure functions over a state type `σ`, every mutating call
returning the next state.  Go's `(value, error)` results are `Except` values.

Layout:
* `trace`     : the error kinds of `github.com/gravitational/trace` used by the file;
* `backend`   : the backend interface, `backend.TTL`, and an in-memory backend;
* `services`  : the role record, its marshaler interface and the ordering used by List;
* `AccessService` : the operations of `access.go`, line by line;
* theorems.
-/

/-- Go `time.Time`, as nanoseconds counted from Go's zero time; `0` is the zero value. -/
abbrev Time := Int

/-- Go `time.Duration`: a signed count of nanoseconds (an `int64`). -/
abbrev Duration := Int

/-- Go `[]byte`. -/
abbrev Bytes := List Nat

/-- Go `time.Second`. -/
def Second : Duration := 1000000000

/-- The largest `time.Duration` (`math.MaxInt64`). -/
def maxDuration : Duration := 2 ^ 63 - 1

/-- Go `Time.IsZero`. -/
def Time.IsZero (t : Time) : Bool := decide (t = 0)

namespace trace

/-- Error values as `access.go` sees them: the two typed kinds it creates or tests for,
any other error value (backend I/O failure, codec failure), and an error that carries a
stack trace added by `trace.Wrap`. -/
inductive Error where
  | NotFoundError (message : String)
  | BadParameterError (message : String)
  | Raw (message : String)
  | Traced (err : Error)
deriving DecidableEq, Repr

/-- Go `trace.Unwrap`: the error under the trace. -/
def Unwrap : Error → Error
  | .Traced e => Unwrap e
  | e => e

/-- Go `trace.IsNotFound`: the kind test looks through the trace. -/
def IsNotFound (e : Error) : Bool :=
  match Unwrap e with
  | .NotFoundError _ => true
  | _ => false

/-- Go `trace.IsBadParameter`. -/
def IsBadParameter (e : Error) : Bool :=
  match Unwrap e with
  | .BadParameterError _ => true
  | _ => false

/-- Go `trace.Wrap` on a non-nil error: an error that already carries a trace is returned
as it is, any other is put under a new trace. -/
def Wrap : Error → Error
  | .Traced e => .Traced e
  | e => .Traced e

/-- Go `trace.NotFound(message)`. -/
def NotFound (message : String) : Error := .Traced (.NotFoundError message)

/-- Go `trace.BadParameter(message)`. -/
def BadParameter (message : String) : Error := .Traced (.BadParameterError message)

end trace

namespace backend

/-- The `backend.Backend` interface as `access.go` consumes it, over a state `σ`. -/
structure Backend (σ : Type) where
  /-- The current backend time, `Clock().Now()`. -/
  Clock : σ → Time
  /-- Read the value at `path`/`key`. -/
  GetVal : σ → List String → String → Except trace.Error Bytes
  /-- Create or replace the value at `path`/`key` with a time-to-live. -/
  UpsertVal : σ → List String → String → Bytes → Duration → Except trace.Error σ
  /-- List the immediate child keys under `path`. -/
  GetKeys : σ → List String → Except trace.Error (List String)
  /-- Remove the subtree `name` under `path`. -/
  DeleteBucket : σ → List String → String → Except trace.Error σ

/-- Modelled from the spec: `backend.TTL` (lib/backend) is not among the source files.
The spec gives the TTL implied by a role's `expires` relative to the current backend
time, and says that without `expires` the implied TTL is unbounded; as the result is a
`time.Duration` compared with `<` against the requested TTL, unbounded is the largest
duration. -/
def TTL (now : Time) (expires : Time) : Duration :=
  if expires.IsZero then maxDuration else expires - now

end backend

namespace services

/-- Modelled from the spec: the role metadata (lib/services) is not among the source
files; the spec gives it a name and an optional absolute `expires` timestamp whose zero
value means no expiration. -/
structure Metadata where
  Name : String
  Expires : Time
deriving DecidableEq, Repr

/-- Modelled from the spec: `services.ServiceRole` (lib/services) is not among the source
files; the store consumes it through `GetName` and `GetMetadata` only. -/
structure ServiceRole where
  Metadata : Metadata
deriving DecidableEq, Repr

/-- Go `role.GetName()`. -/
def ServiceRole.GetName (r : ServiceRole) : String := r.Metadata.Name

/-- Go `role.GetMetadata()`. -/
def ServiceRole.GetMetadata (r : ServiceRole) : services.Metadata := r.Metadata

/-- The value of `services.GetServiceRoleMarshaler()`: the two codec functions. -/
structure ServiceRoleMarshaler where
  MarshalServiceRole : ServiceRole → Except trace.Error Bytes
  UnmarshalServiceRole : Bytes → Except trace.Error ServiceRole

/-- Modelled from the spec: `services.SortedServiceRoles.Less` (lib/services) is not among
the source files; the spec orders roles by name. -/
def Less (a b : ServiceRole) : Prop := a.GetName < b.GetName

end services

/-- The receiver of `access.go`: `AccessService` embeds the backend interface value. -/
structure AccessService (σ : Type) where
  Backend : backend.Backend σ

namespace AccessService

open services

variable {σ : Type}

/-- Constructor `NewAccessService` (access.go:35-37). -/
def NewAccessService (b : backend.Backend σ) : AccessService σ := { Backend := b }

/-- Method `DeleteAllServiceRoles` (access.go:40-42). -/
def DeleteAllServiceRoles (s : AccessService σ) (st : σ) : Except trace.Error σ :=
  s.Backend.DeleteBucket st [] "roles"

/-- Method `GetServiceRole` (access.go:86-98). -/
def GetServiceRole (s : AccessService σ) (m : ServiceRoleMarshaler) (st : σ) (name : String) :
    Except trace.Error ServiceRole :=
  if name = "" then
    .error (trace.BadParameter "missing role name")
  else
    match s.Backend.GetVal st ["roles", name] "params" with
    | .error err =>
      if trace.IsNotFound err then
        .error (trace.NotFound ("role " ++ name ++ " is not found"))
      else
        .error (trace.Wrap err)
    | .ok data => m.UnmarshalServiceRole data

/-- The `for _, name := range keys` loop of `GetServiceRoles` (access.go:51-60), `out`
being the slice built so far. -/
def GetServiceRoles.loop (s : AccessService σ) (m : ServiceRoleMarshaler) (st : σ) :
    List String → List ServiceRole → Except trace.Error (List ServiceRole)
  | [], out => .ok out
  | name :: keys, out =>
    match s.GetServiceRole m st name with
    | .error err =>
      if trace.IsNotFound err then
        GetServiceRoles.loop s m st keys out
      else
        .error (trace.Wrap err)
    | .ok u => GetServiceRoles.loop s m st keys (out ++ [u])

/-- Method `GetServiceRoles` (access.go:45-63).  `sortRoles` stands for
`sort.Sort(services.SortedServiceRoles(out))`, Go's library sort. -/
def GetServiceRoles (s : AccessService σ) (m : ServiceRoleMarshaler)
    (sortRoles : List ServiceRole → List ServiceRole) (st : σ) :
    Except trace.Error (List ServiceRole) :=
  match s.Backend.GetKeys st ["roles"] with
  | .error err => .error (trace.Wrap err)
  | .ok keys =>
    match GetServiceRoles.loop s m st keys [] with
    | .error err => .error err
    | .ok out => .ok (sortRoles out)

/-- Method `UpsertServiceRole` (access.go:66-83). -/
def UpsertServiceRole (s : AccessService σ) (m : ServiceRoleMarshaler) (st : σ)
    (role : ServiceRole) (ttl : Duration) : Except trace.Error σ :=
  match m.MarshalServiceRole role with
  | .error err => .error (trace.Wrap err)
  | .ok data =>
    let backendTTL := backend.TTL (s.Backend.Clock st) role.GetMetadata.Expires
    let ttl := if backendTTL < ttl then backendTTL else ttl
    match s.Backend.UpsertVal st ["roles", role.GetName] "params" data ttl with
    | .error err => .error (trace.Wrap err)
    | .ok st' => .ok st'

/-- Method `DeleteServiceRole` (access.go:101-109). -/
def DeleteServiceRole (s : AccessService σ) (st : σ) (role : String) : Except trace.Error σ :=
  match s.Backend.DeleteBucket st ["roles"] role with
  | .error err =>
    if trace.IsNotFound err then
      .error (trace.NotFound ("role '" ++ role ++ "' is not found"))
    else
      .error (trace.Wrap err)
  | .ok st' => .ok st'

end AccessService

/-! ## An in-memory backend and a byte codec

Concrete instances of the two consumed interfaces, used to run the operations on
concrete inputs. -/

namespace backend

/-- One stored value of the in-memory backend: where it lives, its bytes and the time at
which it expires (`none`: never). -/
structure Item where
  path : List String
  key : String
  val : Bytes
  expires : Option Time
deriving DecidableEq, Repr

/-- The state of the in-memory backend: its clock and its stored values. -/
structure MemState where
  now : Time
  items : List Item
deriving DecidableEq, Repr

/-- An item is readable until its expiry time is reached. -/
def Item.live (now : Time) (it : Item) : Bool :=
  match it.expires with
  | none => true
  | some t => decide (now < t)

/-- The item is stored at exactly `path`/`key`. -/
def Item.isAt (path : List String) (key : String) (it : Item) : Bool :=
  decide (it.path = path) && decide (it.key = key)

/-- The item lies in the subtree rooted at `bucket`. -/
def Item.under (bucket : List String) (it : Item) : Bool :=
  decide (it.path.take bucket.length = bucket)

/-- The immediate child of `path` through which the item is reached: its key when it is
stored at `path` itself, the next path component when it lies deeper. -/
def Item.child (path : List String) (it : Item) : Option String :=
  if it.path.take path.length = path then
    match it.path.drop path.length with
    | [] => some it.key
    | c :: _ => some c
  else none

/-- Modelled from the spec: no backend implementation is among the source files.  The
in-memory backend follows the spec's capability table: GetVal fails with NotFound if the
value is absent, UpsertVal creates or replaces and treats `ttl ≤ 0` as no expiration,
GetKeys lists the immediate child keys (empty if none), DeleteBucket removes a subtree and
fails with NotFound if it is absent, Clock gives the current time. -/
def Mem : Backend MemState where
  Clock st := st.now
  GetVal st path key :=
    match st.items.find? (fun it => it.isAt path key && it.live st.now) with
    | some it => .ok it.val
    | none => .error (trace.NotFound ("key " ++ key ++ " is not found"))
  UpsertVal st path key val ttl :=
    .ok { st with
      items := { path := path, key := key, val := val,
                 expires := if ttl ≤ 0 then none else some (st.now + ttl) }
               :: st.items.filter (fun it => !it.isAt path key) }
  GetKeys st path :=
    .ok ((st.items.filter (fun it => it.live st.now)).filterMap (Item.child path)).dedup
  DeleteBucket st path name :=
    if st.items.any (fun it => it.under (path ++ [name]) && it.live st.now) then
      .ok { st with items := st.items.filter (fun it => !it.under (path ++ [name])) }
    else
      .error (trace.NotFound ("bucket " ++ name ++ " is not found"))

/-- The empty in-memory store at time `now`. -/
def MemState.empty (now : Time) : MemState := { now := now, items := [] }

/-- Time passes: the clock of the in-memory backend moves forward by `d`. -/
def MemState.advance (d : Duration) (st : MemState) : MemState :=
  { st with now := st.now + d }

end backend

namespace services

/-- A byte codec for roles, used to run the operations on examples (the spec leaves the
wire format open): a sign byte and the magnitude of `expires`, then the code points of
the name. -/
def plainMarshal (r : ServiceRole) : Except trace.Error Bytes :=
  .ok ((if r.Metadata.Expires < 0 then 1 else 0) :: r.Metadata.Expires.natAbs
        :: r.Metadata.Name.toList.map Char.toNat)

/-- The decoder of the byte codec; anything shorter than the two leading numbers, or with
a sign that is neither 0 nor 1, is rejected. -/
def plainUnmarshal : Bytes → Except trace.Error ServiceRole
  | 0 :: mag :: cs =>
    .ok { Metadata := { Name := String.mk (cs.map Char.ofNat), Expires := (mag : Int) } }
  | 1 :: mag :: cs =>
    .ok { Metadata := { Name := String.mk (cs.map Char.ofNat), Expires := - (mag : Int) } }
  | _ => .error (.Raw "malformed role")

/-- The codec as a marshaler value. -/
def plainMarshaler : ServiceRoleMarshaler where
  MarshalServiceRole := plainMarshal
  UnmarshalServiceRole := plainUnmarshal

/-- Insertion sort of roles by name (the names compared as sequences of characters): one
function meeting the contract of `sort.Sort(services.SortedServiceRoles(out))`. -/
def sortByName (l : List ServiceRole) : List ServiceRole :=
  l.insertionSort (fun a b => a.GetName.toList ≤ b.GetName.toList)

/-- Build a role from its name and `expires`. -/
def mkRole (name : String) (expires : Time) : ServiceRole :=
  { Metadata := { Name := name, Expires := expires } }

end services

/-- The role service over the in-memory backend. -/
def memService : AccessService backend.MemState := AccessService.NewAccessService backend.Mem


/-! ## Example states of the in-memory backend -/

namespace Examples

open backend

/-- The encoded role "zebra" without expires. -/
def zebraBytes : Bytes := [0, 0, 122, 101, 98, 114, 97]

/-- The encoded role "alpha" without expires. -/
def alphaBytes : Bytes := [0, 0, 97, 108, 112, 104, 97]

/-- The encoded role "mike" without expires. -/
def mikeBytes : Bytes := [0, 0, 109, 105, 107, 101]

/-- The store after "zebra" was upserted into the empty store. -/
def stZ : MemState :=
  { now := 1000, items := [⟨["roles", "zebra"], "params", zebraBytes, none⟩] }

/-- The store after "zebra" and "alpha" were upserted. -/
def stZA : MemState :=
  { now := 1000,
    items := [⟨["roles", "alpha"], "params", alphaBytes, none⟩,
              ⟨["roles", "zebra"], "params", zebraBytes, none⟩] }

/-- The store after "zebra", "alpha" and "mike" were upserted, in that order. -/
def stZAM : MemState :=
  { now := 1000,
    items := [⟨["roles", "mike"], "params", mikeBytes, none⟩,
              ⟨["roles", "alpha"], "params", alphaBytes, none⟩,
              ⟨["roles", "zebra"], "params", zebraBytes, none⟩] }

/-- A store in which the bucket of "ghost" is listed under "roles" but holds no "params"
value (the role's value is gone at fetch time), next to the role "alpha". -/
def stGhost : MemState :=
  { now := 1000,
    items := [⟨["roles", "ghost"], "other", [], none⟩,
              ⟨["roles", "alpha"], "params", alphaBytes, none⟩] }

/-- The store after a role with the empty name was upserted into the empty store. -/
def stEmptyName : MemState :=
  { now := 1000, items := [⟨["roles", ""], "params", [0, 0], none⟩] }

/-- A store holding a malformed record under "broken", listed before the empty key. -/
def stBroken : MemState :=
  { now := 1000,
    items := [⟨["roles", "broken"], "params", [], none⟩,
              ⟨["roles", ""], "params", [0, 0], none⟩] }

end Examples

/-! ## Contracts of the consumed interfaces and derived notions -/

namespace backend

variable {σ : Type}

/-- A read at a path returns the last value written there. -/
def ReadsLastWrite (b : Backend σ) : Prop :=
  ∀ st path key val ttl st', b.UpsertVal st path key val ttl = .ok st' →
    b.GetVal st' path key = .ok val

/-- A write changes no value but the one at its own path and key. -/
def WritesOnlyTarget (b : Backend σ) : Prop :=
  ∀ st path key val ttl st', b.UpsertVal st path key val ttl = .ok st' →
    ∀ p k v, b.GetVal st' p k = .ok v → (p = path ∧ k = key ∧ v = val) ∨ b.GetVal st p k = .ok v

/-- A bucket delete creates or changes no value: what can be read afterwards could be
read before. -/
def DeleteOnlyRemoves (b : Backend σ) : Prop :=
  ∀ st path name st', b.DeleteBucket st path name = .ok st' →
    ∀ p k v, b.GetVal st' p k = .ok v → b.GetVal st p k = .ok v

/-- After a bucket is deleted, its values are absent: reads in it report NotFound. -/
def DeleteClearsValues (b : Backend σ) : Prop :=
  ∀ st path name st', b.DeleteBucket st path name = .ok st' →
    ∀ key, ∃ e, b.GetVal st' (path ++ [name]) key = .error e ∧ trace.IsNotFound e = true

/-- A bucket delete removes the subtree and fails with NotFound if it is absent: right
after a successful delete the same delete reports NotFound. -/
def DeleteFailsIfAbsent (b : Backend σ) : Prop :=
  ∀ st path name st', b.DeleteBucket st path name = .ok st' →
    ∃ e, b.DeleteBucket st' path name = .error e ∧ trace.IsNotFound e = true

/-- Nothing can be read from the state `empty`. -/
def HasNoValue (b : Backend σ) (empty : σ) : Prop :=
  ∀ path key v, b.GetVal empty path key ≠ .ok v

end backend

namespace services

/-- The marshaler is symmetric: unmarshal undoes marshal. -/
def RoundTrips (m : ServiceRoleMarshaler) : Prop :=
  ∀ r data, m.MarshalServiceRole r = .ok data → m.UnmarshalServiceRole data = .ok r

/-- The contract of `sort.Sort` over `SortedServiceRoles`: the result is a rearrangement of
the input in which no element is `Less` than one before it. -/
def SortsByLess (sortRoles : List ServiceRole → List ServiceRole) : Prop :=
  ∀ l, (sortRoles l).Perm l ∧ (sortRoles l).Pairwise (fun a b => ¬ Less b a)

end services

namespace AccessService

open services

variable {σ : Type}

/-- The roles obtained by loading each of `keys` in turn, keeping the loads that
succeed. -/
def loaded (s : AccessService σ) (m : ServiceRoleMarshaler) (st : σ) (keys : List String) :
    List ServiceRole :=
  keys.filterMap (fun k => (s.GetServiceRole m st k).toOption)

/-- The backend states reachable from `empty` by successful calls of `UpsertServiceRole`,
`DeleteServiceRole` and `DeleteAllServiceRoles`. -/
inductive Reachable (s : AccessService σ) (m : ServiceRoleMarshaler) (empty : σ) : σ → Prop
  | init : Reachable s m empty empty
  | upsert {st st' : σ} (role : ServiceRole) (ttl : Duration) :
      Reachable s m empty st → s.UpsertServiceRole m st role ttl = .ok st' →
      Reachable s m empty st'
  | delete {st st' : σ} (name : String) :
      Reachable s m empty st → s.DeleteServiceRole st name = .ok st' →
      Reachable s m empty st'
  | deleteAll {st st' : σ} :
      Reachable s m empty st → s.DeleteAllServiceRoles st = .ok st' →
      Reachable s m empty st'

end AccessService

/-! ## Facts about the error kinds -/

namespace trace

theorem Unwrap_Wrap (e : Error) : Unwrap (Wrap e) = Unwrap e := by
  cases e <;> simp [Wrap, Unwrap]

theorem IsNotFound_Wrap (e : Error) : IsNotFound (Wrap e) = IsNotFound e := by
  simp [IsNotFound, Unwrap_Wrap]

theorem IsBadParameter_Wrap (e : Error) : IsBadParameter (Wrap e) = IsBadParameter e := by
  simp [IsBadParameter, Unwrap_Wrap]

theorem IsNotFound_NotFound (msg : String) : IsNotFound (NotFound msg) = true := rfl

theorem IsBadParameter_BadParameter (msg : String) :
    IsBadParameter (BadParameter msg) = true := rfl

theorem IsNotFound_BadParameter (msg : String) : IsNotFound (BadParameter msg) = false := rfl

theorem IsBadParameter_of_IsNotFound {e : Error} (h : IsNotFound e = true) :
    IsBadParameter e = false := by
  unfold IsNotFound at h
  unfold IsBadParameter
  cases hu : Unwrap e <;> simp_all

end trace

/-! ## The in-memory backend and the codec meet their contracts -/

namespace services

theorem ofNat_toNat_chars (cs : List Char) : (cs.map Char.toNat).map Char.ofNat = cs := by
  induction cs with
  | nil => rfl
  | cons c cs ih => simp [ih]

theorem plainUnmarshal_plainMarshal (r : ServiceRole) (data : Bytes)
    (h : plainMarshal r = .ok data) : plainUnmarshal data = .ok r := by
  obtain ⟨⟨name, e⟩⟩ := r
  simp only [plainMarshal, Except.ok.injEq] at h
  subst h
  have hname : String.mk ((name.toList.map Char.toNat).map Char.ofNat) = name := by
    rw [ofNat_toNat_chars]; rfl
  by_cases he : e < 0
  · have hneg : (-(Int.natAbs e : Int)) = e := by
      have := Int.ofNat_natAbs_of_nonpos (le_of_lt he)
      rw [this]; exact neg_neg e
    simp only [he, if_true, plainUnmarshal, hname, hneg]
  · have hpos : ((Int.natAbs e : Int)) = e := Int.natAbs_of_nonneg (not_lt.mp he)
    simp only [he, if_false, plainUnmarshal, hname, hpos]

theorem plainMarshaler_RoundTrips : RoundTrips plainMarshaler :=
  fun r data h => plainUnmarshal_plainMarshal r data h

end services

namespace backend

theorem Mem_GetVal_eq (st : MemState) (path : List String) (key : String) :
    Mem.GetVal st path key =
      match st.items.find? (fun it => it.isAt path key && it.live st.now) with
      | some it => .ok it.val
      | none => .error (trace.NotFound ("key " ++ key ++ " is not found")) := rfl

theorem Mem_UpsertVal_eq (st : MemState) (path : List String) (key : String) (val : Bytes)
    (ttl : Duration) :
    Mem.UpsertVal st path key val ttl =
      .ok { st with
        items := { path := path, key := key, val := val,
                   expires := if ttl ≤ 0 then none else some (st.now + ttl) }
                 :: st.items.filter (fun it => !it.isAt path key) } := rfl

theorem Mem_DeleteBucket_eq (st : MemState) (path : List String) (name : String) :
    Mem.DeleteBucket st path name =
      if st.items.any (fun it => it.under (path ++ [name]) && it.live st.now) then
        .ok { st with items := st.items.filter (fun it => !it.under (path ++ [name])) }
      else
        .error (trace.NotFound ("bucket " ++ name ++ " is not found")) := rfl

/-- A value written by the in-memory backend is readable at the time of the write. -/
theorem written_item_live (now : Time) (path : List String) (key : String) (val : Bytes)
    (ttl : Duration) :
    Item.live now { path := path, key := key, val := val,
                    expires := if ttl ≤ 0 then none else some (now + ttl) } = true := by
  by_cases h : ttl ≤ 0
  · simp [Item.live, h]
  · have : now < now + ttl := by
      have : 0 < ttl := not_le.mp h
      exact lt_add_of_pos_right now this
    simp [Item.live, h, this]

theorem Mem_ReadsLastWrite : ReadsLastWrite Mem := by
  intro st path key val ttl st' h
  rw [Mem_UpsertVal_eq] at h
  injection h with h
  subst h
  rw [Mem_GetVal_eq]
  simp only [List.find?_cons]
  have hlive := written_item_live st.now path key val ttl
  simp [Item.isAt, hlive]

/-- Filtering a list by `q` does not change the first element satisfying `p` when every
element satisfying `p` passes `q`. -/
theorem find?_filter_keep {α : Type} (p q : α → Bool) (l : List α)
    (h : ∀ a, p a = true → q a = true) : (l.filter q).find? p = l.find? p := by
  induction l with
  | nil => rfl
  | cons a l ih =>
    by_cases hq : q a = true
    · simp only [List.filter_cons, hq, if_true, List.find?_cons, ih]
    · have hp : p a = false := by
        cases hpa : p a with
        | false => rfl
        | true => exact absurd (h a hpa) hq
      have hq2 : q a = false := by simpa using hq
      simp [List.filter_cons, hq2, List.find?_cons, hp, ih]

theorem Mem_WritesOnlyTarget : WritesOnlyTarget Mem := by
  intro st path key val ttl st' h p k v hget
  by_cases hpk : p = path ∧ k = key
  · obtain ⟨rfl, rfl⟩ := hpk
    have := Mem_ReadsLastWrite st p k val ttl st' h
    rw [this] at hget
    injection hget with hv
    exact Or.inl ⟨rfl, rfl, hv.symm⟩
  · right
    rw [Mem_UpsertVal_eq] at h
    injection h with h
    subst h
    rw [Mem_GetVal_eq] at hget
    rw [Mem_GetVal_eq]
    have hnew : ∀ e : Option Time,
        Item.isAt p k { path := path, key := key, val := val, expires := e } = false := by
      intro e
      simp only [Item.isAt, Bool.and_eq_false_imp, decide_eq_true_eq, decide_eq_false_iff_not]
      intro hp hk
      exact hpk ⟨hp.symm, hk.symm⟩
    have hkeep : ∀ a : Item, (a.isAt p k && a.live st.now) = true → (!a.isAt path key) = true := by
      intro a ha
      simp only [Item.isAt, Bool.and_eq_true, decide_eq_true_eq] at ha
      simp only [Item.isAt, Bool.not_eq_true_eq_eq_false, Bool.and_eq_false_imp,
        decide_eq_true_eq, decide_eq_false_iff_not]
      intro hp hk
      exact hpk ⟨ha.1.1.symm.trans hp, ha.1.2.symm.trans hk⟩
    simp only [List.find?_cons, hnew, Bool.false_and] at hget
    rw [find?_filter_keep _ _ _ hkeep] at hget
    exact hget

theorem Mem_DeleteOnlyRemoves : DeleteOnlyRemoves Mem := by
  intro st path name st' h p k v hget
  rw [Mem_DeleteBucket_eq] at h
  split at h
  · injection h with h
    subst h
    rw [Mem_GetVal_eq] at hget
    rw [Mem_GetVal_eq]
    simp only at hget
    cases hf : (st.items.filter (fun a => !a.under (path ++ [name]))).find?
        (fun a => a.isAt p k && a.live st.now) with
    | none => rw [hf] at hget; cases hget
    | some it =>
      have hit := List.find?_some hf
      have hmem := (List.mem_filter.mp (List.mem_of_find?_eq_some hf)).2
      simp only [Bool.and_eq_true, Bool.not_eq_true_eq_eq_false] at hit hmem
      have hitp : it.path = p := by
        have := hit.1
        simp only [Item.isAt, Bool.and_eq_true, decide_eq_true_eq] at this
        exact this.1
      have hkeep : ∀ a : Item, (a.isAt p k && a.live st.now) = true →
          (!a.under (path ++ [name])) = true := by
        intro a ha
        simp only [Item.isAt, Bool.and_eq_true, decide_eq_true_eq] at ha
        simp only [Item.under, hitp] at hmem
        simp only [Item.under, ha.1.1, Bool.not_eq_true_eq_eq_false]
        exact hmem
      rw [find?_filter_keep _ _ _ hkeep] at hget
      exact hget
  · cases h

theorem Mem_DeleteClearsValues : DeleteClearsValues Mem := by
  intro st path name st' h key
  rw [Mem_DeleteBucket_eq] at h
  split at h
  · injection h with h
    subst h
    refine ⟨trace.NotFound ("key " ++ key ++ " is not found"), ?_, rfl⟩
    rw [Mem_GetVal_eq]
    have hnone : (st.items.filter (fun it => !it.under (path ++ [name]))).find?
        (fun it => it.isAt (path ++ [name]) key && it.live st.now) = none := by
      rw [List.find?_eq_none]
      intro x hx
      have hx2 := (List.mem_filter.mp hx).2
      simp only [Item.under, Bool.not_eq_true_eq_eq_false, decide_eq_false_iff_not] at hx2
      simp only [Item.isAt, Bool.and_eq_true, decide_eq_true_eq, not_and]
      intro hp
      exact absurd (by rw [hp.1]; exact List.take_length _) hx2
    simp only [hnone]
  · cases h

theorem Mem_DeleteFailsIfAbsent : DeleteFailsIfAbsent Mem := by
  intro st path name st' h
  rw [Mem_DeleteBucket_eq] at h
  split at h
  · injection h with h
    subst h
    refine ⟨trace.NotFound ("bucket " ++ name ++ " is not found"), ?_, rfl⟩
    rw [Mem_DeleteBucket_eq]
    have hany : (st.items.filter (fun it => !it.under (path ++ [name]))).any
        (fun it => it.under (path ++ [name]) && it.live st.now) = false := by
      rw [List.any_eq_false]
      intro x hx
      have hx2 := (List.mem_filter.mp hx).2
      simp only [Bool.not_eq_true_eq_eq_false] at hx2
      simp [hx2]
    simp only [hany]
    rfl
  · cases h

theorem Mem_HasNoValue (now : Time) : HasNoValue Mem (MemState.empty now) := by
  intro path key v h
  rw [Mem_GetVal_eq] at h
  simp [MemState.empty] at h

end backend

/-! ## Upsert, Get and the TTL rule -/

open services backend AccessService

/-- C1 (Upsert-then-Get): over a backend whose reads return the last value written at a
path and a marshaler whose unmarshal undoes marshal, if `UpsertServiceRole r ttl` succeeds
for a role with a non-empty name, then `GetServiceRole r.GetName` in the resulting state
succeeds and returns `r`. -/
theorem upsert_then_get {σ : Type} (s : AccessService σ) (m : ServiceRoleMarshaler)
    (st st' : σ) (r : ServiceRole) (ttl : Duration)
    (hname : r.GetName ≠ "")
    (hread : ReadsLastWrite s.Backend)
    (hcodec : RoundTrips m)
    (hup : s.UpsertServiceRole m st r ttl = .ok st') :
    s.GetServiceRole m st' r.GetName = .ok r := by
  unfold UpsertServiceRole at hup
  cases hm : m.MarshalServiceRole r with
  | error e => rw [hm] at hup; cases hup
  | ok data =>
    rw [hm] at hup
    simp only at hup
    cases hw : s.Backend.UpsertVal st ["roles", r.GetName] "params" data
        (if TTL (s.Backend.Clock st) r.GetMetadata.Expires < ttl
          then TTL (s.Backend.Clock st) r.GetMetadata.Expires else ttl) with
    | error e => rw [hw] at hup; cases hup
    | ok st1 =>
      rw [hw] at hup
      injection hup with hup
      subst hup
      have hget := hread _ _ _ _ _ _ hw
      unfold GetServiceRole
      rw [if_neg hname, hget]
      exact hcodec r data hm

/-- C1 at a concrete input: the role "alpha" upserted into the empty in-memory store is
read back unchanged. -/
theorem upsert_then_get_witness :
    (mkRole "alpha" 0).GetName ≠ "" ∧
    memService.UpsertServiceRole plainMarshaler (MemState.empty 1000) (mkRole "alpha" 0) 0 =
      .ok { now := 1000,
            items := [⟨["roles", "alpha"], "params", [0, 0, 97, 108, 112, 104, 97], none⟩] } ∧
    memService.GetServiceRole plainMarshaler
      { now := 1000,
        items := [⟨["roles", "alpha"], "params", [0, 0, 97, 108, 112, 104, 97], none⟩] }
      (mkRole "alpha" 0).GetName = .ok (mkRole "alpha" 0) :=
  ⟨by decide, rfl,
   upsert_then_get memService plainMarshaler (MemState.empty 1000) _ (mkRole "alpha" 0) 0
     (by decide) Mem_ReadsLastWrite plainMarshaler_RoundTrips rfl⟩

/-- When marshaling succeeds, `UpsertServiceRole` is one backend write, its error wrapped;
the TTL of the write is the one chosen by the `if backendTTL < ttl` of the source. -/
theorem upsert_eq_write {σ : Type} (s : AccessService σ) (m : ServiceRoleMarshaler)
    (st : σ) (role : ServiceRole) (ttl : Duration) (data : Bytes)
    (hm : m.MarshalServiceRole role = .ok data) :
    s.UpsertServiceRole m st role ttl =
      (s.Backend.UpsertVal st ["roles", role.GetName] "params" data
        (if TTL (s.Backend.Clock st) role.GetMetadata.Expires < ttl
          then TTL (s.Backend.Clock st) role.GetMetadata.Expires else ttl)).mapError
        trace.Wrap := by
  unfold UpsertServiceRole
  rw [hm]
  simp only
  cases s.Backend.UpsertVal st ["roles", role.GetName] "params" data
      (if TTL (s.Backend.Clock st) role.GetMetadata.Expires < ttl
        then TTL (s.Backend.Clock st) role.GetMetadata.Expires else ttl) <;> rfl

/-- C2 (TTL minimum rule): when marshaling succeeds, `UpsertServiceRole` is the backend
write at `["roles", name]` / `"params"` of the marshaled bytes with a TTL equal to the
minimum of the requested ttl and `backend.TTL(Clock, role.Expires)`, its error wrapped. -/
theorem upsert_ttl_is_min {σ : Type} (s : AccessService σ) (m : ServiceRoleMarshaler)
    (st : σ) (role : ServiceRole) (ttl : Duration) (data : Bytes)
    (hm : m.MarshalServiceRole role = .ok data) :
    s.UpsertServiceRole m st role ttl =
      (s.Backend.UpsertVal st ["roles", role.GetName] "params" data
        (min ttl (TTL (s.Backend.Clock st) role.GetMetadata.Expires))).mapError trace.Wrap := by
  rw [upsert_eq_write s m st role ttl data hm]
  have hmin : (if TTL (s.Backend.Clock st) role.GetMetadata.Expires < ttl
      then TTL (s.Backend.Clock st) role.GetMetadata.Expires else ttl) =
      min ttl (TTL (s.Backend.Clock st) role.GetMetadata.Expires) := by
    by_cases h : TTL (s.Backend.Clock st) role.GetMetadata.Expires < ttl
    · rw [if_pos h, min_eq_right (le_of_lt h)]
    · rw [if_neg h, min_eq_left (not_lt.mp h)]
  rw [hmin]

/-- C2 at the spec's example: with `expires = now + 10s` and `ttl = 100s` the minimum is
10s, and the in-memory backend stores the value with expiry time `now + 10s`. -/
theorem upsert_ttl_is_min_witness :
    min (100 * Second) (TTL 1000 (1000 + 10 * Second)) = 10 * Second ∧
    memService.UpsertServiceRole plainMarshaler (MemState.empty 1000)
        (mkRole "alpha" (1000 + 10 * Second)) (100 * Second) =
      (Mem.UpsertVal (MemState.empty 1000) ["roles", "alpha"] "params"
        [0, 10000001000, 97, 108, 112, 104, 97]
        (min (100 * Second) (TTL 1000 (1000 + 10 * Second)))).mapError trace.Wrap ∧
    (Mem.UpsertVal (MemState.empty 1000) ["roles", "alpha"] "params"
        [0, 10000001000, 97, 108, 112, 104, 97]
        (min (100 * Second) (TTL 1000 (1000 + 10 * Second)))).mapError trace.Wrap =
      .ok { now := 1000,
            items := [⟨["roles", "alpha"], "params", [0, 10000001000, 97, 108, 112, 104, 97],
                       some (1000 + 10 * Second)⟩] } :=
  ⟨by decide,
   upsert_ttl_is_min memService plainMarshaler (MemState.empty 1000)
     (mkRole "alpha" (1000 + 10 * Second)) (100 * Second) _ rfl,
   rfl⟩

/-- C8 (no forced expiry without expires): for a role whose `expires` is the zero value and
a positive requested ttl (a `time.Duration`, so at most the largest duration), when
marshaling succeeds `UpsertServiceRole` is the backend write with exactly the requested
ttl.  Positivity of the ttl is part of the claim and is not needed by the proof. -/
theorem upsert_without_expires_keeps_ttl {σ : Type} (s : AccessService σ)
    (m : ServiceRoleMarshaler) (st : σ) (role : ServiceRole) (ttl : Duration) (data : Bytes)
    (hexp : role.GetMetadata.Expires.IsZero = true)
    (_hpos : 0 < ttl) (hrange : ttl ≤ maxDuration)
    (hm : m.MarshalServiceRole role = .ok data) :
    s.UpsertServiceRole m st role ttl =
      (s.Backend.UpsertVal st ["roles", role.GetName] "params" data ttl).mapError
        trace.Wrap := by
  rw [upsert_eq_write s m st role ttl data hm]
  have httl : TTL (s.Backend.Clock st) role.GetMetadata.Expires = maxDuration := by
    unfold TTL
    rw [if_pos hexp]
  rw [httl, if_neg (not_lt.mpr hrange)]

/-- C8 at the spec's example: `expires` unset and `ttl = 100s`; the in-memory backend
stores the value with expiry time `now + 100s`. -/
theorem upsert_without_expires_keeps_ttl_witness :
    (mkRole "mike" 0).GetMetadata.Expires.IsZero = true ∧
    (0 : Duration) < 100 * Second ∧ 100 * Second ≤ maxDuration ∧
    memService.UpsertServiceRole plainMarshaler (MemState.empty 1000) (mkRole "mike" 0)
        (100 * Second) =
      (Mem.UpsertVal (MemState.empty 1000) ["roles", "mike"] "params"
        [0, 0, 109, 105, 107, 101] (100 * Second)).mapError trace.Wrap ∧
    (Mem.UpsertVal (MemState.empty 1000) ["roles", "mike"] "params"
        [0, 0, 109, 105, 107, 101] (100 * Second)).mapError trace.Wrap =
      .ok { now := 1000,
            items := [⟨["roles", "mike"], "params", [0, 0, 109, 105, 107, 101],
                       some (1000 + 100 * Second)⟩] } :=
  ⟨rfl, by decide, by decide,
   upsert_without_expires_keeps_ttl memService plainMarshaler (MemState.empty 1000)
     (mkRole "mike" 0) (100 * Second) _ rfl (by decide) (by decide) rfl,
   rfl⟩

/-- C3, the code at the failing input: a role whose `expires` is 10s after the backend
time, upserted with `ttl = 0`.  The TTL chosen is `0`, which the backend takes as no
expiration: the value is stored without expiry time and is still returned 20s later,
10s after the role's own `expires`. -/
theorem upsert_zero_ttl_outlives_expires :
    (1000 : Time) < 1000 + 10 * Second ∧
    (if TTL 1000 (1000 + 10 * Second) < 0 then TTL 1000 (1000 + 10 * Second) else 0) = 0 ∧
    memService.UpsertServiceRole plainMarshaler (MemState.empty 1000)
        (mkRole "alpha" (1000 + 10 * Second)) 0 =
      .ok { now := 1000,
            items := [⟨["roles", "alpha"], "params", [0, 10000001000, 97, 108, 112, 104, 97],
                       none⟩] } ∧
    memService.GetServiceRole plainMarshaler
        (MemState.advance (20 * Second)
          { now := 1000,
            items := [⟨["roles", "alpha"], "params", [0, 10000001000, 97, 108, 112, 104, 97],
                       none⟩] })
        "alpha" = .ok (mkRole "alpha" (1000 + 10 * Second)) :=
  ⟨by decide, by decide, rfl, rfl⟩

/-! ## List -/

theorem sortByName_SortsByLess : SortsByLess sortByName := by
  intro l
  haveI : IsTotal ServiceRole (fun a b => a.GetName.toList ≤ b.GetName.toList) :=
    ⟨fun a b => le_total a.GetName.toList b.GetName.toList⟩
  haveI : IsTrans ServiceRole (fun a b => a.GetName.toList ≤ b.GetName.toList) :=
    ⟨fun _ _ _ hab hbc => le_trans hab hbc⟩
  refine ⟨List.perm_insertionSort _ l, ?_⟩
  have hs := List.sorted_insertionSort (fun a b : ServiceRole =>
    a.GetName.toList ≤ b.GetName.toList) l
  refine List.Pairwise.imp ?_ hs
  intro a b hab
  unfold Less
  exact not_lt.mpr (String.le_iff_toList_le.mpr hab)

/-- The loop of `GetServiceRoles`, characterised: either every failing load is a NotFound
and the loop returns the slice extended by the loaded roles, or the loop stops at the
first key whose load fails otherwise and returns that error, wrapped. -/
theorem loop_cases {σ : Type} (s : AccessService σ) (m : ServiceRoleMarshaler) (st : σ) :
    ∀ (keys : List String) (out : List ServiceRole),
      ((∀ k ∈ keys, ∀ e, s.GetServiceRole m st k = .error e → trace.IsNotFound e = true) ∧
        GetServiceRoles.loop s m st keys out = .ok (out ++ loaded s m st keys)) ∨
      (∃ pre k post e, keys = pre ++ k :: post ∧
        (∀ k' ∈ pre, ∀ e', s.GetServiceRole m st k' = .error e' →
          trace.IsNotFound e' = true) ∧
        s.GetServiceRole m st k = .error e ∧ trace.IsNotFound e = false ∧
        GetServiceRoles.loop s m st keys out = .error (trace.Wrap e)) := by
  intro keys
  induction keys with
  | nil =>
    intro out
    left
    refine ⟨fun k hk => absurd hk (List.not_mem_nil k), ?_⟩
    simp [GetServiceRoles.loop, loaded]
  | cons name keys ih =>
    intro out
    cases hload : s.GetServiceRole m st name with
    | error err =>
      by_cases hnf : trace.IsNotFound err = true
      · have hstep : GetServiceRoles.loop s m st (name :: keys) out =
            GetServiceRoles.loop s m st keys out := by
          simp only [GetServiceRoles.loop, hload, hnf, if_true]
        have hl : loaded s m st (name :: keys) = loaded s m st keys := by
          simp [loaded, hload, Except.toOption]
        rcases ih out with ⟨hall, hok⟩ | ⟨pre, k, post, e, hk, hpre, hke, hknf, herr⟩
        · left
          refine ⟨?_, by rw [hstep, hl, hok]⟩
          intro k hk e he
          rcases List.mem_cons.mp hk with rfl | hk
          · rw [hload] at he
            injection he with he
            rw [← he]; exact hnf
          · exact hall k hk e he
        · right
          refine ⟨name :: pre, k, post, e, by rw [hk]; rfl, ?_, hke, hknf, by rw [hstep, herr]⟩
          intro k' hk' e' he'
          rcases List.mem_cons.mp hk' with rfl | hk'
          · rw [hload] at he'
            injection he' with he'
            rw [← he']; exact hnf
          · exact hpre k' hk' e' he'
      · right
        have hnf' : trace.IsNotFound err = false := by simpa using hnf
        refine ⟨[], name, keys, err, rfl, fun k hk => absurd hk (List.not_mem_nil k),
          hload, hnf', ?_⟩
        simp only [GetServiceRoles.loop, hload, hnf', Bool.false_eq_true, if_false]
    | ok u =>
      have hstep : GetServiceRoles.loop s m st (name :: keys) out =
          GetServiceRoles.loop s m st keys (out ++ [u]) := by
        simp only [GetServiceRoles.loop, hload]
      have hl : loaded s m st (name :: keys) = u :: loaded s m st keys := by
        simp [loaded, hload, Except.toOption]
      rcases ih (out ++ [u]) with ⟨hall, hok⟩ | ⟨pre, k, post, e, hk, hpre, hke, hknf, herr⟩
      · left
        refine ⟨?_, by rw [hstep, hl, hok]; simp⟩
        intro k hk e he
        rcases List.mem_cons.mp hk with rfl | hk
        · rw [hload] at he; cases he
        · exact hall k hk e he
      · right
        refine ⟨name :: pre, k, post, e, by rw [hk]; rfl, ?_, hke, hknf, by rw [hstep, herr]⟩
        intro k' hk' e' he'
        rcases List.mem_cons.mp hk' with rfl | hk'
        · rw [hload] at he'; cases he'
        · exact hpre k' hk' e' he'

/-- C4 (List result): when `GetServiceRoles` succeeds, the key listing under `["roles"]`
succeeded and the result is the sort of the roles obtained by loading each listed key whose
load succeeds, one per such key in listing order: a rearrangement of those roles that is
ascending by name. -/
theorem list_is_sorted_loaded_roles {σ : Type} (s : AccessService σ)
    (m : ServiceRoleMarshaler) (sortRoles : List ServiceRole → List ServiceRole) (st : σ)
    (res : List ServiceRole)
    (hsort : SortsByLess sortRoles)
    (h : s.GetServiceRoles m sortRoles st = .ok res) :
    ∃ keys, s.Backend.GetKeys st ["roles"] = .ok keys ∧
      res = sortRoles (loaded s m st keys) ∧
      res.Perm (loaded s m st keys) ∧
      res.Sorted (fun a b => a.GetName ≤ b.GetName) := by
  unfold GetServiceRoles at h
  cases hk : s.Backend.GetKeys st ["roles"] with
  | error e => rw [hk] at h; cases h
  | ok keys =>
    rw [hk] at h
    simp only at h
    refine ⟨keys, rfl, ?_⟩
    rcases loop_cases s m st keys [] with ⟨_, hok⟩ | ⟨pre, k, post, e, _, _, _, _, herr⟩
    · rw [hok] at h
      simp only [List.nil_append] at h
      injection h with h
      subst h
      refine ⟨rfl, (hsort _).1, ?_⟩
      refine List.Pairwise.imp ?_ (hsort (loaded s m st keys)).2
      intro a b hab
      exact not_lt.mp hab
    · rw [herr] at h; cases h

/-- C4 at the spec's example: "zebra", "alpha", "mike" upserted in that order are listed
as "alpha", "mike", "zebra". -/
theorem list_is_sorted_loaded_roles_witness :
    memService.UpsertServiceRole plainMarshaler (MemState.empty 1000) (mkRole "zebra" 0) 0 =
      .ok Examples.stZ ∧
    memService.UpsertServiceRole plainMarshaler Examples.stZ (mkRole "alpha" 0) 0 =
      .ok Examples.stZA ∧
    memService.UpsertServiceRole plainMarshaler Examples.stZA (mkRole "mike" 0) 0 =
      .ok Examples.stZAM ∧
    memService.GetServiceRoles plainMarshaler sortByName Examples.stZAM =
      .ok [mkRole "alpha" 0, mkRole "mike" 0, mkRole "zebra" 0] ∧
    ∃ keys, memService.Backend.GetKeys Examples.stZAM ["roles"] = .ok keys ∧
      [mkRole "alpha" 0, mkRole "mike" 0, mkRole "zebra" 0] =
        sortByName (loaded memService plainMarshaler Examples.stZAM keys) ∧
      [mkRole "alpha" 0, mkRole "mike" 0, mkRole "zebra" 0].Perm
        (loaded memService plainMarshaler Examples.stZAM keys) ∧
      [mkRole "alpha" 0, mkRole "mike" 0, mkRole "zebra" 0].Sorted
        (fun a b => a.GetName ≤ b.GetName) :=
  ⟨rfl, rfl, rfl, rfl,
   list_is_sorted_loaded_roles memService plainMarshaler sortByName Examples.stZAM _
     sortByName_SortsByLess rfl⟩

/-- C5 (List error policy): `GetServiceRoles` fails exactly when the key listing under
`["roles"]` fails or the load of some listed key fails with an error that is not of the
NotFound kind; and when every failing load is a NotFound, the call succeeds with the sort
of the remaining (successfully loaded) roles. -/
theorem list_fails_iff {σ : Type} (s : AccessService σ) (m : ServiceRoleMarshaler)
    (sortRoles : List ServiceRole → List ServiceRole) (st : σ) :
    ((∃ e, s.GetServiceRoles m sortRoles st = .error e) ↔
      ((∃ e, s.Backend.GetKeys st ["roles"] = .error e) ∨
        ∃ keys, s.Backend.GetKeys st ["roles"] = .ok keys ∧
          ∃ k ∈ keys, ∃ e, s.GetServiceRole m st k = .error e ∧
            trace.IsNotFound e = false)) ∧
    (∀ keys, s.Backend.GetKeys st ["roles"] = .ok keys →
      (∀ k ∈ keys, ∀ e, s.GetServiceRole m st k = .error e → trace.IsNotFound e = true) →
      s.GetServiceRoles m sortRoles st = .ok (sortRoles (loaded s m st keys))) := by
  have hsucc : ∀ keys, s.Backend.GetKeys st ["roles"] = .ok keys →
      (∀ k ∈ keys, ∀ e, s.GetServiceRole m st k = .error e → trace.IsNotFound e = true) →
      s.GetServiceRoles m sortRoles st = .ok (sortRoles (loaded s m st keys)) := by
    intro keys hk hall
    unfold GetServiceRoles
    rw [hk]
    simp only
    rcases loop_cases s m st keys [] with ⟨_, hok⟩ | ⟨pre, k, post, e, hkeys, _, hke, hknf, _⟩
    · rw [hok]; rfl
    · have := hall k (by rw [hkeys]; simp) e hke
      rw [hknf] at this
      cases this
  refine ⟨⟨?_, ?_⟩, hsucc⟩
  · rintro ⟨e, he⟩
    cases hk : s.Backend.GetKeys st ["roles"] with
    | error e' => exact Or.inl ⟨e', rfl⟩
    | ok keys =>
      right
      refine ⟨keys, rfl, ?_⟩
      by_contra hno
      have hall : ∀ k ∈ keys, ∀ e, s.GetServiceRole m st k = .error e →
          trace.IsNotFound e = true := by
        intro k hkm e' he'
        by_contra hnf
        exact hno ⟨k, hkm, e', he', by simpa using hnf⟩
      rw [hsucc keys hk hall] at he
      cases he
  · rintro (⟨e, he⟩ | ⟨keys, hk, k, hkm, e, hke, hknf⟩)
    · exact ⟨trace.Wrap e, by unfold GetServiceRoles; rw [he]⟩
    · unfold GetServiceRoles
      rw [hk]
      simp only
      rcases loop_cases s m st keys [] with ⟨hall, _⟩ | ⟨pre, k', post, e', _, _, _, _, herr⟩
      · have := hall k hkm e hke
        rw [hknf] at this
        cases this
      · exact ⟨trace.Wrap e', by rw [herr]⟩

/-- C5 at a concrete input: "ghost" is listed but its value is absent, so its load reports
NotFound; the call succeeds and returns the remaining role "alpha". -/
theorem list_fails_iff_witness :
    memService.Backend.GetKeys Examples.stGhost ["roles"] = .ok ["ghost", "alpha"] ∧
    memService.GetServiceRole plainMarshaler Examples.stGhost "ghost" =
      .error (trace.NotFound "role ghost is not found") ∧
    memService.GetServiceRoles plainMarshaler sortByName Examples.stGhost =
      .ok (sortByName (loaded memService plainMarshaler Examples.stGhost ["ghost", "alpha"])) ∧
    sortByName (loaded memService plainMarshaler Examples.stGhost ["ghost", "alpha"]) =
      [mkRole "alpha" 0] :=
  ⟨rfl, rfl,
   (list_fails_iff memService plainMarshaler sortByName Examples.stGhost).2
     ["ghost", "alpha"] rfl (by
       intro k hk e he
       rcases List.mem_cons.mp hk with rfl | hk
       · have h1 : memService.GetServiceRole plainMarshaler Examples.stGhost "ghost" =
             .error (trace.NotFound "role ghost is not found") := rfl
         rw [h1] at he
         injection he with he
         rw [← he]; rfl
       · rcases List.mem_cons.mp hk with rfl | hk
         · have h2 : memService.GetServiceRole plainMarshaler Examples.stGhost "alpha" =
               .ok (mkRole "alpha" 0) := rfl
           rw [h2] at he
           cases he
         · exact absurd hk (List.not_mem_nil k)),
   rfl⟩

/-! ## Delete and DeleteAll -/

/-- C6, refuted at a concrete input: over the in-memory backend, whose bucket delete
fails with NotFound when the bucket is absent, `DeleteAllServiceRoles` succeeds on a store
holding one role and the second call, on the store it left, fails with NotFound. -/
theorem deleteAll_twice_second_fails :
    DeleteFailsIfAbsent Mem ∧
    memService.DeleteAllServiceRoles Examples.stZ = .ok (MemState.empty 1000) ∧
    memService.DeleteAllServiceRoles (MemState.empty 1000) =
      .error (trace.NotFound "bucket roles is not found") ∧
    trace.IsNotFound (trace.NotFound "bucket roles is not found") = true :=
  ⟨Mem_DeleteFailsIfAbsent, rfl, rfl, rfl⟩

/-- C6 as amended: `DeleteAllServiceRoles` returns the result of the backend's
`DeleteBucket([], "roles")` unchanged; so over a backend whose bucket delete fails with
NotFound when the bucket is absent, right after a successful `DeleteAllServiceRoles` a
second call fails with that NotFound error. -/
theorem deleteAll_second_call_not_found {σ : Type} (s : AccessService σ) (st st' : σ)
    (hdel : DeleteFailsIfAbsent s.Backend)
    (h : s.DeleteAllServiceRoles st = .ok st') :
    ∃ e, s.DeleteAllServiceRoles st' = .error e ∧
      s.Backend.DeleteBucket st' [] "roles" = .error e ∧ trace.IsNotFound e = true := by
  obtain ⟨e, he, hnf⟩ := hdel st [] "roles" st' h
  exact ⟨e, he, he, hnf⟩

/-- The amended C6 at a concrete input: the second call on the in-memory backend. -/
theorem deleteAll_second_call_not_found_witness :
    memService.DeleteAllServiceRoles Examples.stZ = .ok (MemState.empty 1000) ∧
    ∃ e, memService.DeleteAllServiceRoles (MemState.empty 1000) = .error e ∧
      memService.Backend.DeleteBucket (MemState.empty 1000) [] "roles" = .error e ∧
      trace.IsNotFound e = true :=
  ⟨rfl, deleteAll_second_call_not_found memService Examples.stZ (MemState.empty 1000)
    Mem_DeleteFailsIfAbsent rfl⟩

/-- C7, refuted at a concrete input: a role with the empty name was upserted; then
`DeleteServiceRole ""` succeeds (over the in-memory backend, where reads in a deleted
bucket report NotFound), and the following `GetServiceRole ""` fails with BadParameter,
which is not of the NotFound kind. -/
theorem delete_then_get_empty_name_bad_parameter :
    DeleteClearsValues Mem ∧
    memService.UpsertServiceRole plainMarshaler (MemState.empty 1000) (mkRole "" 0) 0 =
      .ok Examples.stEmptyName ∧
    memService.DeleteServiceRole Examples.stEmptyName "" = .ok (MemState.empty 1000) ∧
    memService.GetServiceRole plainMarshaler (MemState.empty 1000) "" =
      .error (trace.BadParameter "missing role name") ∧
    trace.IsNotFound (trace.BadParameter "missing role name") = false :=
  ⟨Mem_DeleteClearsValues, rfl, rfl, rfl, rfl⟩

/-- C7 as amended (Delete-then-Get for a non-empty name): over a backend where reads in a
deleted bucket report NotFound, if `DeleteServiceRole name` succeeds for a non-empty
`name`, then `GetServiceRole name` in the resulting state fails with an error of the
NotFound kind. -/
theorem delete_then_get_not_found {σ : Type} (s : AccessService σ)
    (m : ServiceRoleMarshaler) (st st' : σ) (name : String)
    (hname : name ≠ "")
    (hclear : DeleteClearsValues s.Backend)
    (h : s.DeleteServiceRole st name = .ok st') :
    ∃ e, s.GetServiceRole m st' name = .error e ∧ trace.IsNotFound e = true := by
  unfold DeleteServiceRole at h
  cases hd : s.Backend.DeleteBucket st ["roles"] name with
  | error e =>
    rw [hd] at h
    simp only at h
    split at h <;> cases h
  | ok st1 =>
    rw [hd] at h
    injection h with h
    subst h
    obtain ⟨e, he, hnf⟩ := hclear st ["roles"] name st1 hd "params"
    have he' : s.Backend.GetVal st1 ["roles", name] "params" = .error e := he
    refine ⟨trace.NotFound ("role " ++ name ++ " is not found"), ?_, rfl⟩
    unfold GetServiceRole
    rw [if_neg hname, he']
    simp only [hnf, if_true]

/-- The amended C7 at a concrete input: "mike" is deleted from the store holding "zebra",
"alpha" and "mike", and is then not found. -/
theorem delete_then_get_not_found_witness :
    ("mike" : String) ≠ "" ∧
    memService.DeleteServiceRole Examples.stZAM "mike" = .ok Examples.stZA ∧
    ∃ e, memService.GetServiceRole plainMarshaler Examples.stZA "mike" = .error e ∧
      trace.IsNotFound e = true :=
  ⟨by decide, rfl,
   delete_then_get_not_found memService plainMarshaler Examples.stZAM Examples.stZA "mike"
     (by decide) Mem_DeleteClearsValues rfl⟩

/-! ## The stored name matches the key -/

/-- C9 (store and key never diverge): over a backend in which nothing can be read from
`empty`, a write changes only its own path and key and a bucket delete only removes, and
a marshaler whose unmarshal undoes marshal: in every state reachable from `empty` by
`UpsertServiceRole`, `DeleteServiceRole` and `DeleteAllServiceRoles` calls, every value
stored at `["roles", k]` / `"params"` unmarshals to a role whose name is `k`. -/
theorem stored_role_name_is_key {σ : Type} (s : AccessService σ) (m : ServiceRoleMarshaler)
    (empty st : σ)
    (hempty : HasNoValue s.Backend empty)
    (hwrite : WritesOnlyTarget s.Backend)
    (hdelete : DeleteOnlyRemoves s.Backend)
    (hcodec : RoundTrips m)
    (hreach : Reachable s m empty st) :
    ∀ k data, s.Backend.GetVal st ["roles", k] "params" = .ok data →
      ∃ r, m.UnmarshalServiceRole data = .ok r ∧ r.GetName = k := by
  induction hreach with
  | init =>
    intro k data h
    exact absurd h (hempty _ _ _)
  | @upsert st0 st1 role ttl _ hup ih =>
    intro k data h
    unfold UpsertServiceRole at hup
    cases hm : m.MarshalServiceRole role with
    | error e => rw [hm] at hup; cases hup
    | ok bytes =>
      rw [hm] at hup
      simp only at hup
      cases hw : s.Backend.UpsertVal st0 ["roles", role.GetName] "params" bytes
          (if TTL (s.Backend.Clock st0) role.GetMetadata.Expires < ttl
            then TTL (s.Backend.Clock st0) role.GetMetadata.Expires else ttl) with
      | error e => rw [hw] at hup; cases hup
      | ok st2 =>
        rw [hw] at hup
        injection hup with hup
        subst hup
        rcases hwrite _ _ _ _ _ _ hw _ _ _ h with ⟨hp, _, hv⟩ | hold
        · have hk : k = role.GetName := by
            injection hp with _ hp
            injection hp with hp _
          subst hv
          exact ⟨role, hcodec role _ hm, hk.symm⟩
        · exact ih k data hold
  | @delete st0 st1 name _ hdel ih =>
    intro k data h
    unfold DeleteServiceRole at hdel
    cases hd : s.Backend.DeleteBucket st0 ["roles"] name with
    | error e =>
      rw [hd] at hdel
      simp only at hdel
      split at hdel <;> cases hdel
    | ok st2 =>
      rw [hd] at hdel
      injection hdel with hdel
      subst hdel
      exact ih k data (hdelete _ _ _ _ hd _ _ _ h)
  | @deleteAll st0 st1 _ hdel ih =>
    intro k data h
    exact ih k data (hdelete _ _ _ _ hdel _ _ _ h)

/-- C9 at a concrete input: in the in-memory store reached by upserting "zebra", "alpha"
and "mike", the value stored for "alpha" unmarshals to a role named "alpha". -/
theorem stored_role_name_is_key_witness :
    Reachable memService plainMarshaler (MemState.empty 1000) Examples.stZAM ∧
    memService.Backend.GetVal Examples.stZAM ["roles", "alpha"] "params" =
      .ok Examples.alphaBytes ∧
    ∃ r, plainMarshaler.UnmarshalServiceRole Examples.alphaBytes = .ok r ∧
      r.GetName = "alpha" :=
  have hreach : Reachable memService plainMarshaler (MemState.empty 1000) Examples.stZAM :=
    Reachable.upsert (mkRole "mike" 0) 0
      (Reachable.upsert (mkRole "alpha" 0) 0
        (Reachable.upsert (mkRole "zebra" 0) 0 Reachable.init rfl) rfl) rfl
  ⟨hreach, rfl,
   stored_role_name_is_key memService plainMarshaler (MemState.empty 1000) Examples.stZAM
     (Mem_HasNoValue 1000) Mem_WritesOnlyTarget Mem_DeleteOnlyRemoves
     plainMarshaler_RoundTrips hreach "alpha" Examples.alphaBytes rfl⟩

/-! ## A role with the empty name -/

theorem GetServiceRole_empty_name {σ : Type} (s : AccessService σ) (m : ServiceRoleMarshaler)
    (st : σ) :
    s.GetServiceRole m st "" = .error (trace.BadParameter "missing role name") := by
  unfold GetServiceRole
  rw [if_pos rfl]

/-- C10, refuted at a concrete input: the key listing under `["roles"]` contains the
empty key, after the key "broken" whose record is malformed; `GetServiceRoles` fails with
the wrapped unmarshal error of "broken", which is not of the BadParameter kind. -/
theorem list_with_empty_key_other_error :
    memService.Backend.GetKeys Examples.stBroken ["roles"] = .ok ["broken", ""] ∧
    "" ∈ ["broken", ""] ∧
    memService.GetServiceRoles plainMarshaler sortByName Examples.stBroken =
      .error (trace.Error.Traced (trace.Error.Raw "malformed role")) ∧
    trace.IsBadParameter (trace.Error.Traced (trace.Error.Raw "malformed role")) = false :=
  ⟨rfl, by decide, rfl, rfl⟩

/-- C10 as amended: `UpsertServiceRole` does not check the name, so for a role with the
empty name it succeeds whenever marshal and the backend write at `["roles", ""]` succeed;
and in every state whose key listing under `["roles"]` contains the empty key,
`GetServiceRoles` fails (it returns no roles): the error is of the BadParameter kind,
unless the load of a non-empty key listed before the first empty key fails with an error
that is not of the NotFound kind, in which case that error, wrapped, is returned. -/
theorem empty_name_fails_list {σ : Type} (s : AccessService σ) (m : ServiceRoleMarshaler)
    (sortRoles : List ServiceRole → List ServiceRole) (st : σ) :
    (∀ role ttl data st', role.GetName = "" → m.MarshalServiceRole role = .ok data →
      s.Backend.UpsertVal st ["roles", ""] "params" data
        (min ttl (TTL (s.Backend.Clock st) role.GetMetadata.Expires)) = .ok st' →
      s.UpsertServiceRole m st role ttl = .ok st') ∧
    (∀ keys, s.Backend.GetKeys st ["roles"] = .ok keys → "" ∈ keys →
      ∃ e, s.GetServiceRoles m sortRoles st = .error e ∧
        (trace.IsBadParameter e = true ∨
          ∃ pre k post e', keys = pre ++ k :: post ∧ "" ∉ pre ∧ k ≠ "" ∧ "" ∈ post ∧
            s.GetServiceRole m st k = .error e' ∧ trace.IsNotFound e' = false ∧
            e = trace.Wrap e')) := by
  constructor
  · intro role ttl data st' hname hm hw
    rw [upsert_eq_write s m st role ttl data hm, hname]
    have hmin : (if TTL (s.Backend.Clock st) role.GetMetadata.Expires < ttl
        then TTL (s.Backend.Clock st) role.GetMetadata.Expires else ttl) =
        min ttl (TTL (s.Backend.Clock st) role.GetMetadata.Expires) := by
      by_cases h : TTL (s.Backend.Clock st) role.GetMetadata.Expires < ttl
      · rw [if_pos h, min_eq_right (le_of_lt h)]
      · rw [if_neg h, min_eq_left (not_lt.mp h)]
    rw [hmin, hw]
    rfl
  · intro keys hk hmem
    have hempty := GetServiceRole_empty_name s m st
    unfold GetServiceRoles
    rw [hk]
    simp only
    rcases loop_cases s m st keys [] with ⟨hall, _⟩ | ⟨pre, k, post, e, hkeys, hpre, hke, hknf, herr⟩
    · have := hall "" hmem _ hempty
      rw [trace.IsNotFound_BadParameter] at this
      cases this
    · refine ⟨trace.Wrap e, by rw [herr], ?_⟩
      have hnotpre : "" ∉ pre := by
        intro hin
        have := hpre "" hin _ hempty
        rw [trace.IsNotFound_BadParameter] at this
        cases this
      by_cases hkz : k = ""
      · left
        subst hkz
        rw [hempty] at hke
        injection hke with hke
        rw [← hke]
        rfl
      · right
        refine ⟨pre, k, post, e, hkeys, hnotpre, hkz, ?_, hke, hknf, rfl⟩
        rw [hkeys] at hmem
        rcases List.mem_append.mp hmem with hin | hin
        · exact absurd hin hnotpre
        · rcases List.mem_cons.mp hin with heq | hin
          · exact absurd heq.symm hkz
          · exact hin

/-- The amended C10 at a concrete input: the role with the empty name is upserted into the
empty in-memory store, and listing the resulting store fails with BadParameter. -/
theorem empty_name_fails_list_witness :
    memService.UpsertServiceRole plainMarshaler (MemState.empty 1000) (mkRole "" 0) 0 =
      .ok Examples.stEmptyName ∧
    memService.Backend.GetKeys Examples.stEmptyName ["roles"] = .ok [""] ∧
    memService.GetServiceRoles plainMarshaler sortByName Examples.stEmptyName =
      .error (trace.BadParameter "missing role name") ∧
    ∃ e, memService.GetServiceRoles plainMarshaler sortByName Examples.stEmptyName =
        .error e ∧
      (trace.IsBadParameter e = true ∨
        ∃ pre k post e', [""] = pre ++ k :: post ∧ "" ∉ pre ∧ k ≠ "" ∧ "" ∈ post ∧
          memService.GetServiceRole plainMarshaler Examples.stEmptyName k = .error e' ∧
          trace.IsNotFound e' = false ∧ e = trace.Wrap e') :=
  ⟨(empty_name_fails_list memService plainMarshaler sortByName (MemState.empty 1000)).1
     (mkRole "" 0) 0 [0, 0] Examples.stEmptyName rfl rfl rfl,
   rfl, rfl,
   (empty_name_fails_list memService plainMarshaler sortByName Examples.stEmptyName).2
     [""] rfl (List.mem_singleton.mpr rfl)⟩
